import Mathlib

/-!
# Verification of the EPUB LIX-analysis pipeline

Shallow embedding of the readability-analysis code (`analyzeEpub.ts`, `utils.ts`)
of the `bygvraa/epub` repository, together with theorems settling the frozen
claims about its specification.

Conventions of the embedding:
* JavaScript numbers are modelled by `JsNum`: either a rational (`fin`), one of
  the two infinities, or `nan`.  All values produced by this pipeline are exact
  binary fractions far below the precision limits of IEEE doubles, so rational
  arithmetic is value-faithful on the paths exercised here.
* `x.toFixed()` followed by `Number(...)` rounds to the nearest integer, ties
  away from the half towards `+∞` (the ECMAScript `toFixed` tie rule); this is
  `jsRound q = ⌊q + 1/2⌋`.
* `x.toPrecision()` with no argument is `toString`, and `Number (toString x) = x`,
  so the `Number((...).toPrecision())` wrappers in the source are identities and
  are not represented.
* `Math.sqrt` does not exist on ℚ.  The code only ever *compares* against a
  square root, so every such comparison is embedded by its squared, decidable
  equivalent (`sqrtGtB`, `gtAddSqrtB`, `ltSubSqrtB`); the lemmas
  `sqrtGtB_iff`, `gtAddSqrtB_iff`, `ltSubSqrtB_iff` prove these equivalent to
  the real-number comparison with `Real.sqrt`.
* Strings are processed as `List Char`.  The regular expressions of the source
  are embedded as explicit scanners reproducing the ECMAScript matching
  semantics (leftmost match, greedy quantifiers with backtracking, lookarounds).
-/

/-! ## JavaScript number model -/

/-- A JavaScript number as produced by this pipeline: a finite rational,
`Infinity`, `-Infinity` or `NaN`. -/
inductive JsNum where
  | nan : JsNum
  | inf : JsNum
  | ninf : JsNum
  | fin : ℚ → JsNum
deriving DecidableEq

/-- JS division of two nonnegative integers: `0/0` is `NaN`, `a/0` with `a ≠ 0`
is `Infinity`, otherwise exact. -/
def jsDivNat (a b : ℕ) : JsNum :=
  if b = 0 then (if a = 0 then JsNum.nan else JsNum.inf) else JsNum.fin ((a : ℚ) / (b : ℚ))

/-- JS addition on `JsNum` (only the cases reachable from `jsDivNat` results
matter, but the table is total). -/
def jsAdd : JsNum → JsNum → JsNum
  | JsNum.nan, _ => JsNum.nan
  | _, JsNum.nan => JsNum.nan
  | JsNum.inf, JsNum.ninf => JsNum.nan
  | JsNum.ninf, JsNum.inf => JsNum.nan
  | JsNum.inf, _ => JsNum.inf
  | _, JsNum.inf => JsNum.inf
  | JsNum.ninf, _ => JsNum.ninf
  | _, JsNum.ninf => JsNum.ninf
  | JsNum.fin a, JsNum.fin b => JsNum.fin (a + b)

/-- `Number(x.toFixed())`: round to the nearest integer, ties toward `+∞`. -/
def jsRound (q : ℚ) : ℤ := ⌊q + 1/2⌋

/-- `Number(x.toFixed())` on a `JsNum`: `(Infinity).toFixed()` is `"Infinity"`
and `Number("Infinity")` is `Infinity` again; same for `NaN`. -/
def jsToFixed0 : JsNum → JsNum
  | JsNum.nan => JsNum.nan
  | JsNum.inf => JsNum.inf
  | JsNum.ninf => JsNum.ninf
  | JsNum.fin q => JsNum.fin ((jsRound q : ℤ) : ℚ)

/-- JS truthiness of a number: `NaN` and `0` are falsy, everything else truthy. -/
def jsTruthy : JsNum → Bool
  | JsNum.nan => false
  | JsNum.inf => true
  | JsNum.ninf => true
  | JsNum.fin q => decide (q ≠ 0)

/-- Extract the finite value of a `JsNum` (default `0`).  Used only after the
truthiness filter of `getSpineItemStats`, where every score is finite. -/
def jsFinD : JsNum → ℚ
  | JsNum.fin q => q
  | _ => 0

/-! ## Character classes (source regexes, ECMAScript semantics) -/

/-- The apostrophe character `'`. -/
def apChar : Char := Char.ofNat 39

/-- The double-quote character `"`. -/
def quChar : Char := Char.ofNat 34

/-- ECMAScript `\s` / `String.prototype.trim` whitespace (code points 9–13,
space, NBSP, Ogham space, the `U+2000` block, line/paragraph separators,
narrow/medium spaces, ideographic space, BOM). -/
def jsWs (c : Char) : Bool :=
  (9 ≤ c.toNat && c.toNat ≤ 13) || c.toNat = 32 || c.toNat = 0xA0 || c.toNat = 0x1680 ||
  (0x2000 ≤ c.toNat && c.toNat ≤ 0x200A) || c.toNat = 0x2028 || c.toNat = 0x2029 ||
  c.toNat = 0x202F || c.toNat = 0x205F || c.toNat = 0x3000 || c.toNat = 0xFEFF

/-- `[a-z]` (code points 97–122). -/
def lowAlpha (c : Char) : Bool := 97 ≤ c.toNat && c.toNat ≤ 122

/-- `[A-Z]` (code points 65–90). -/
def upAlpha (c : Char) : Bool := 65 ≤ c.toNat && c.toNat ≤ 90

/-- `\d` (code points 48–57). -/
def digitCh (c : Char) : Bool := 48 ≤ c.toNat && c.toNat ≤ 57

/-- `[À-ÿ]`, i.e. code points `U+00C0`–`U+00FF`. -/
def accLatin (c : Char) : Bool := 0xC0 ≤ c.toNat && c.toNat ≤ 0xFF

/-- `[à-ÿ]`, i.e. code points `U+00E0`–`U+00FF`. -/
def accLower (c : Char) : Bool := 0xE0 ≤ c.toNat && c.toNat ≤ 0xFF

/-- The class `[a-zA-ZÀ-ÿ0-9]` of the word regex. -/
def wordChar (c : Char) : Bool := lowAlpha c || upAlpha c || digitCh c || accLatin c

/-- The class `[a-zA-ZÀ-ÿ]` of the word-continuation groups. -/
def wordLetter (c : Char) : Bool := lowAlpha c || upAlpha c || accLatin c

/-- ASCII lowercasing (the case folding relevant to the ASCII patterns here). -/
def lowerAscii (c : Char) : Char := if upAlpha c then Char.ofNat (c.toNat + 32) else c

/-- `String.prototype.trim` on a character list. -/
def jsTrimL (l : List Char) : List Char :=
  ((l.dropWhile jsWs).reverse.dropWhile jsWs).reverse

/-! ## The tokenizer (`extractContentFromText`)

Word regex: `[a-zA-ZÀ-ÿ0-9]+(?:[.'][a-zA-ZÀ-ÿ]+)*`, flag `g`.
The scanner below reproduces the leftmost/greedy match sequence: a maximal
base run of `wordChar`s, then repeated groups of one `.`/`'` followed by a
maximal nonempty run of `wordLetter`s. -/

/-- One-pass word scanner.  `acc` is the current token reversed (`[]` when
outside a token); `tl` records whether the scanner is inside a continuation
group (where digits no longer extend the token).  The fuel argument decreases
by one per step while every step consumes at least one character, so
`fuel = length of the remaining text` suffices. -/
def wordsGo : ℕ → List Char → Bool → List Char → List (List Char)
  | _, acc, _, [] => if acc.isEmpty then [] else [acc.reverse]
  | 0, acc, _, _ :: _ => if acc.isEmpty then [] else [acc.reverse]
  | fuel+1, acc, tl, c :: rest =>
    if acc.isEmpty then
      if wordChar c then wordsGo fuel [c] false rest else wordsGo fuel [] false rest
    else if (if tl then wordLetter c else wordChar c) then wordsGo fuel (c :: acc) tl rest
    else if c = '.' || c = apChar then
      match rest with
      | d :: rest2 =>
        if wordLetter d then wordsGo fuel (d :: c :: acc) true rest2
        else acc.reverse :: wordsGo fuel [] false rest
      | [] => [acc.reverse]
    else if wordChar c then acc.reverse :: wordsGo fuel [c] false rest
    else acc.reverse :: wordsGo fuel [] false rest

/-! Sentence regex, exactly as built by the source:

`(?<!\s(?!pc|wc)[${CONSONTANTS}]{1,3}\.)(?<=[.!?'"])\s+(?=[^a-zà-ÿ.(])`

where `CONSONTANTS` is the *RegExp object*
`/bcdfghjklmnpqrstvwxzBCDFGHJKLMNPQRSTVWXZ]/`.  Interpolating it into the
pattern string yields `[/bcdfghjklmnpqrstvwxzBCDFGHJKLMNPQRSTVWXZ]/]{1,3}\.`:
a character class containing `/` and the consonants (closed by the first `]`),
then a literal `/`, then a literal `]` repeated 1–3 times, then `\.`.  The
negative lookbehind therefore only matches text ending in
whitespace, class char, `/`, 1–3 `]`, `.` — which ordinary prose never
contains. -/

/-- The character class `[/bcdfghjklmnpqrstvwxzBCDFGHJKLMNPQRSTVWXZ]` that the
broken interpolation produces. -/
def consClass (c : Char) : Bool :=
  ("/bcdfghjklmnpqrstvwxzBCDFGHJKLMNPQRSTVWXZ".data).contains c

/-- One width alternative of the lookbehind pattern, ending at the boundary and
read backwards: `.`, then `k` closing brackets, then `/`, then one class
character, then a whitespace character.  The `(?!pc|wc)` group inside the
lookbehind can never reject here: the character following the class character
is always `/`, never `c`. -/
def negLBbrkt (k : ℕ) (t : List Char) : Bool :=
  decide (t.take k = List.replicate k ']') &&
    (match t.drop k with
     | '/' :: cls :: w :: _ => consClass cls && jsWs w
     | _ => false)

/-- Whether the negative-lookbehind pattern matches ending at the boundary
(`prevRev` is the reversed text before the boundary). -/
def negLBmatches (prevRev : List Char) : Bool :=
  match prevRev with
  | '.' :: t => negLBbrkt 1 t || negLBbrkt 2 t || negLBbrkt 3 t
  | _ => false

/-- `[.!?'"]`: the sentence-ending punctuation of the positive lookbehind. -/
def closers (c : Char) : Bool :=
  c = '.' || c = '!' || c = '?' || c = apChar || c = quChar

/-- Both lookbehinds of the sentence regex, evaluated at a boundary whose
preceding text (reversed) is `prevRev`. -/
def sentBoundary (prevRev : List Char) : Bool :=
  (match prevRev with | c :: _ => closers c | [] => false) && !negLBmatches prevRev

/-- The lookahead class `[^a-zà-ÿ.(]`.  Note that every whitespace character
satisfies it, which is what makes the greedy `\s+` backtrack by exactly one
character when the character after the run fails the lookahead. -/
def afterOK (c : Char) : Bool := !(lowAlpha c || accLower c || c = '.' || c = '(')

/-- Whether the `(?=[^a-zà-ÿ.(])` lookahead holds at the text position that
follows the whole whitespace run (it fails at end of input). -/
def laMatch (after : List Char) : Bool :=
  match after with
  | a :: _ => afterOK a
  | [] => false

/-- Sentence splitter.  Walks the text, cutting at each separator match of the
sentence regex.  `prevRev` is the already-scanned text reversed (for the
lookbehinds), `cur` the current fragment reversed.  A separator starting at a
whitespace run of length `r` consumes the whole run when the character after
the run satisfies the lookahead, consumes `r - 1` characters when it does not
(or the run reaches the end of the text) and `r ≥ 2`, and otherwise does not
match.  The fuel argument decreases by one per step and every step consumes at
least one character, so `fuel = length of the remaining text` suffices. -/
def sentGo : ℕ → List Char → List Char → List Char → List (List Char)
  | _, _, [], cur => [cur.reverse]
  | 0, _, _ :: _, cur => [cur.reverse]
  | fuel+1, prevRev, c :: rest, cur =>
    if jsWs c && sentBoundary prevRev then
      let wsRest := rest.takeWhile jsWs
      let after := rest.dropWhile jsWs
      if laMatch after then
        cur.reverse :: sentGo fuel ((c :: wsRest).reverse ++ prevRev) after []
      else if wsRest.isEmpty then
        sentGo fuel (c :: prevRev) rest (c :: cur)
      else
        cur.reverse :: sentGo fuel ((c :: wsRest.dropLast).reverse ++ prevRev)
          (wsRest.getLastD ' ' :: after) []
    else sentGo fuel (c :: prevRev) rest (c :: cur)

/-- `text.split(SENTENCE_REGEX)`. -/
def splitToSentences (text : List Char) : List (List Char) :=
  sentGo text.length [] text []

/-- The tokenizer result: `{ words, long_words, sentences }`. -/
structure TextContent where
  words : List String
  long_words : List String
  sentences : List String
deriving DecidableEq

/-- `{ word_count, long_word_count, sentence_count }`. -/
structure TextContentStats where
  word_count : ℕ
  long_word_count : ℕ
  sentence_count : ℕ
deriving DecidableEq

/-- `extractContentFromText`: sentences from splitting the trimmed text
(dropping fragments that trim to nothing), words from matching the word regex
on the untrimmed text, long words as the words of length `> 6`. -/
def extractContentFromText (text : String) : TextContent :=
  let sentences :=
    ((splitToSentences (jsTrimL text.data)).filter
      (fun s => decide (0 < (jsTrimL s).length))).map (fun s => String.mk s)
  let words :=
    ((wordsGo text.data.length [] false text.data).filter
      (fun w => decide (0 < w.length))).map (fun w => String.mk w)
  let long_words := words.filter (fun w => decide (6 < w.length))
  { words := words, long_words := long_words, sentences := sentences }

/-- `calculateLixFromStats`:
`lix = wordCount/sentenceCount + longWordCount*100/wordCount`, then
`Number(lix.toFixed())`. -/
def calculateLixFromStats (stats : TextContentStats) : JsNum :=
  jsToFixed0 (jsAdd (jsDivNat stats.word_count stats.sentence_count)
    (jsDivNat (stats.long_word_count * 100) stats.word_count))

/-! ## The in-text LIX search (`searchForLixInText`)

Regex: `(?<![A-ZÀ-ÿ])LIX\s*\-?(?:TAL)?\:?\s*(\d{1,2})(?!\d?[\-\+])`, flags
`gim`.  With the `i` flag the lookbehind class also rejects lowercase letters.
The optional components consume disjoint character classes, so the greedy
scanner below is equivalent to the backtracking regex; only the 1–2-digit
capture needs explicit backtracking against the trailing negative lookahead. -/

/-- Letters rejected by the lookbehind `(?<![A-ZÀ-ÿ])` under the `i` flag. -/
def lixLetter (c : Char) : Bool := upAlpha c || lowAlpha c || accLatin c

/-- `[-+]`. -/
def signCh (c : Char) : Bool := c = '-' || c = '+'

/-- Case-insensitive ASCII prefix test (`pat` given in lowercase). -/
def startsCI : List Char → List Char → Bool
  | [], _ => true
  | _ :: _, [] => false
  | p :: ps, c :: cs => lowerAscii c = p && startsCI ps cs

/-- The negative lookahead `(?!\d?[\-\+])`: fails exactly when the remaining
text starts with a sign, or with one digit followed by a sign. -/
def lixLaOK (l : List Char) : Bool :=
  match l with
  | [] => true
  | x :: rest =>
    if signCh x then false
    else if digitCh x then (match rest with | y :: _ => !signCh y | [] => true)
    else true

/-- Numeric value of an ASCII digit. -/
def digitValN (c : Char) : ℕ := c.toNat - 48

/-- Attempt to match the LIX regex with the match starting at the head of `l`
(the lookbehind has already been checked by the caller). -/
def lixTryAt (l : List Char) : Option ℕ :=
  if startsCI "lix".data l then
    let r1 := l.drop 3
    let r2 := r1.dropWhile jsWs
    let r3 := match r2 with | c :: t => if c = '-' then t else r2 | [] => r2
    let r4 := if startsCI "tal".data r3 then r3.drop 3 else r3
    let r5 := match r4 with | c :: t => if c = ':' then t else r4 | [] => r4
    let r6 := r5.dropWhile jsWs
    match r6 with
    | d1 :: rest1 =>
      if digitCh d1 then
        match rest1 with
        | d2 :: rest2 =>
          if digitCh d2 then
            if lixLaOK rest2 then some (10 * digitValN d1 + digitValN d2)
            else if lixLaOK rest1 then some (digitValN d1)
            else none
          else if lixLaOK rest1 then some (digitValN d1) else none
        | [] => some (digitValN d1)
      else none
    | [] => none
  else none

/-- Left-to-right scan for the first match; `prevc` is the character before the
current position, for the lookbehind. -/
def searchGo : Option Char → List Char → Option ℕ
  | _, [] => none
  | prevc, c :: rest =>
    if (match prevc with | some p => !lixLetter p | none => true) then
      match lixTryAt (c :: rest) with
      | some n => some n
      | none => searchGo (some c) rest
    else searchGo (some c) rest

/-- `searchForLixInText`: first match of the LIX regex, as an integer. -/
def searchForLixInText (text : String) : Option ℕ :=
  searchGo none text.data

/-! ## Statistics utilities (`utils.ts`) -/

/-- Stable ascending numeric sort, as `Array.prototype.sort` with the
comparator `(a, b) => a - b`. -/
def sortQ (array : List ℚ) : List ℚ := List.insertionSort (· ≤ ·) array

/-- `getMedian`: sort ascending, take the middle element for odd length, the
average of the two middle elements for even length `> 1`; on the empty array
the source reads `sortedArr[0]`, which is `undefined` (`none`). -/
def getMedian (array : List ℚ) : Option ℚ :=
  let sortedArr := sortQ array
  if sortedArr.isEmpty then none
  else
    let midIndex := sortedArr.length / 2
    if sortedArr.length % 2 = 0 ∧ 1 < sortedArr.length then
      some ((sortedArr.getD (midIndex - 1) 0 + sortedArr.getD midIndex 0) / 2)
    else some (sortedArr.getD midIndex 0)

/-- `getMean`. -/
def getMean (array : List ℚ) : ℚ :=
  if array.length = 0 then 0 else array.sum / (array.length : ℚ)

/-- The body of `getStandardDeviation` *before* the final `Math.sqrt`:
mean, deviations, squared deviations, variance.  The source returns
`Real.sqrt` of this value; every comparison against it is embedded through
`sqrtGtB`/`gtAddSqrtB`/`ltSubSqrtB` below. -/
def getVariance (array : List ℚ) : ℚ :=
  if array.length = 0 then 0
  else
    let mean := array.sum / (array.length : ℚ)
    let deviations := array.map (fun num => num - mean)
    let deviationsSq := deviations.map (fun devi => devi * devi)
    deviationsSq.sum / (array.length : ℚ)

/-- Decidable form of `Real.sqrt v > c` for `v ≥ 0` (see `sqrtGtB_iff`). -/
def sqrtGtB (v c : ℚ) : Bool := decide (c < 0) || decide (c ^ 2 < v)

/-- Decidable form of `x > m + Real.sqrt v` for `v ≥ 0` (see `gtAddSqrtB_iff`). -/
def gtAddSqrtB (x m v : ℚ) : Bool := decide (0 < x - m) && decide (v < (x - m) ^ 2)

/-- Decidable form of `x < m - Real.sqrt v` for `v ≥ 0` (see `ltSubSqrtB_iff`). -/
def ltSubSqrtB (x m v : ℚ) : Bool := decide (0 < m - x) && decide (v < (m - x) ^ 2)

/-! ## The spine pipeline data model -/

/-- A spine item: container path and extracted text. -/
structure SpineItem where
  path : String
  text : String
deriving DecidableEq

/-- A scored spine item as first built by `getSpineItemStats` (the score is a
raw JS number, possibly `NaN`). -/
structure SpineItemContent where
  title : String
  generated_lix : JsNum
  words : List String
  long_words : List String
  sentences : List String
deriving DecidableEq

/-- A scored spine item with a finite score, the form consumed by
`filterItemsUsingStandardDeviation`.  In the pipeline every item that survives
the truthiness filter has a finite score (`mkContent_truthy_fin`), so the
conversion `contentToQ` is value-faithful there. -/
structure SpineItemContentQ where
  title : String
  generated_lix : ℚ
  words : List String
  long_words : List String
  sentences : List String
deriving DecidableEq

/-- The per-item stats record of the final report. -/
structure SpineItemStats where
  title : String
  generated_lix : ℚ
  word_count : ℕ
  long_word_count : ℕ
  sentence_count : ℕ
deriving DecidableEq

/-- `path.basename`: the part of the path after the last `/`. -/
def basename (p : String) : String :=
  String.mk ((p.data.reverse.takeWhile (fun c => decide (c ≠ '/'))).reverse)

/-- Plain (case-sensitive) contiguous-run prefix test. -/
def startsEq : List Char → List Char → Bool
  | [], _ => true
  | _ :: _, [] => false
  | p :: ps, c :: cs => p = c && startsEq ps cs

/-- Contiguous substring test. -/
def containsSeq (pat : List Char) : List Char → Bool
  | [] => pat.isEmpty
  | c :: rest => startsEq pat (c :: rest) || containsSeq pat rest

/-- `/chapter|kapitel/i.test(path)`: case-insensitive substring search. -/
def chapterTest (path : String) : Bool :=
  containsSeq "chapter".data (path.data.map lowerAscii) ||
    containsSeq "kapitel".data (path.data.map lowerAscii)

/-- Build the scored item for one spine item (the body of the `map` inside
`getSpineItemStats`). -/
def mkContent (item : SpineItem) : SpineItemContent :=
  let c := extractContentFromText item.text
  { title := basename item.path,
    generated_lix := calculateLixFromStats
      { word_count := c.words.length, long_word_count := c.long_words.length,
        sentence_count := c.sentences.length },
    words := c.words, long_words := c.long_words, sentences := c.sentences }

/-- Typed narrowing of a truthiness-filtered item to its finite score. -/
def contentToQ (item : SpineItemContent) : SpineItemContentQ :=
  { title := item.title, generated_lix := jsFinD item.generated_lix,
    words := item.words, long_words := item.long_words, sentences := item.sentences }

/-! ## The outlier filter (`filterItemsUsingStandardDeviation`) -/

/-- The sort comparator `(a, b) => a.generated_lix - b.generated_lix` as the
order underlying the stable ascending sort. -/
def lixLe (a b : SpineItemContentQ) : Prop := a.generated_lix ≤ b.generated_lix

instance : DecidableRel lixLe :=
  fun a b => inferInstanceAs (Decidable (a.generated_lix ≤ b.generated_lix))

instance : IsTotal SpineItemContentQ lixLe := ⟨fun _ _ => le_total _ _⟩

instance : IsTrans SpineItemContentQ lixLe := ⟨fun _ _ _ h h2 => le_trans h h2⟩

/-- `items.slice().sort((a, b) => a.generated_lix - b.generated_lix)`:
stable ascending sort by score. -/
def sortByLix (items : List SpineItemContentQ) : List SpineItemContentQ :=
  List.insertionSort lixLe items

/-- Placeholder item for the (in-range) `getD` reads. -/
def emptyItemQ : SpineItemContentQ :=
  { title := "", generated_lix := 0, words := [], long_words := [], sentences := [] }

/-- `sortedArr[Math.floor(sortedArr.length / 2)].generated_lix`: the value the
filter uses as its midpoint (the upper middle element — *not* the `getMedian`
algorithm, which averages the two middle elements for even length). -/
def midLix (items : List SpineItemContentQ) : ℚ :=
  ((sortByLix items).getD ((sortByLix items).length / 2) emptyItemQ).generated_lix

/-- The scores handed to `getStandardDeviation`:
`sortedArr.map(item => Number(item.generated_lix.toFixed()))`. -/
def roundedScores (items : List SpineItemContentQ) : List ℚ :=
  (sortByLix items).map (fun it => ((jsRound it.generated_lix : ℤ) : ℚ))

/-- The variance of the rounded scores (square of the standard deviation the
filter compares against). -/
def roundedVariance (items : List SpineItemContentQ) : ℚ :=
  getVariance (roundedScores items)

/-- The removal loop of `filterItemsUsingStandardDeviation`, as a function of
the processed prefix (reversed) and the remaining suffix of the sorted array.

Correspondence with the JS loop at index `i` over the mutating array
(`prev.length = i`, array `= prev.reverse ++ e :: rest`):
* neither bound hit: keep `e`, `i++`;
* `e > upperBound`: `splice(i); i--`, then the second `if` re-reads the element
  now at index `i` — the *last kept* element `p`; if `prev` is empty that read
  is `sortedArr[-1].generated_lix`, a `TypeError` caught by the enclosing
  `try`, which returns the current (partially filtered) array — here `rest`;
* `e < lowerBound` only: `splice(i); i--; i++` — continue with `rest`. -/
def sdLoop (hiB loB : SpineItemContentQ → Bool) :
    List SpineItemContentQ → List SpineItemContentQ → List SpineItemContentQ
  | prev, [] => prev.reverse
  | prev, e :: rest =>
    if hiB e then
      match prev with
      | [] => rest
      | p :: ps => if loB p then sdLoop hiB loB ps rest else sdLoop hiB loB (p :: ps) rest
    else if loB e then sdLoop hiB loB prev rest
    else sdLoop hiB loB (e :: prev) rest

/-- `filterItemsUsingStandardDeviation`.  On the empty array the source throws
(`sortedArr[0].generated_lix` is a `TypeError` *outside* the `try`), modelled
as `none`.  Otherwise: if the standard deviation of the rounded scores exceeds
`maxStdDev`, run the removal loop against the bounds
`midValue ± stdDev` (computed once, before any removal); else return the
sorted array unchanged. -/
def filterItemsUsingStandardDeviation (items : List SpineItemContentQ) (maxStdDev : ℚ) :
    Option (List SpineItemContentQ) :=
  let sortedArr := sortByLix items
  if sortedArr.isEmpty then none
  else
    let midValue := midLix items
    let v := roundedVariance items
    if sqrtGtB v maxStdDev then
      some (sdLoop (fun e => gtAddSqrtB e.generated_lix midValue v)
        (fun e => ltSubSqrtB e.generated_lix midValue v) [] sortedArr)
    else some sortedArr

/-! ## Title ordering and the stats pipeline -/

/-- Numeric value of a digit run. -/
def natVal (run : List Char) : ℕ :=
  run.foldl (fun a c => 10 * a + digitValN c) 0

/-- Numeric-aware, case-folded comparison modelling
`localeCompare(..., { numeric: true, sensitivity: 'base' })`: digit runs are
compared by value, other characters by folded code point. -/
def natCmp : ℕ → List Char → List Char → Ordering
  | 0, _, _ => Ordering.eq
  | _+1, [], [] => Ordering.eq
  | _+1, [], _ :: _ => Ordering.lt
  | _+1, _ :: _, [] => Ordering.gt
  | fuel+1, x :: xs, y :: ys =>
    if digitCh x && digitCh y then
      let dx := (x :: xs).takeWhile digitCh
      let dy := (y :: ys).takeWhile digitCh
      match compare (natVal dx) (natVal dy) with
      | Ordering.eq => natCmp fuel ((x :: xs).dropWhile digitCh) ((y :: ys).dropWhile digitCh)
      | o => o
    else
      let cx := lowerAscii x
      let cy := lowerAscii y
      if cx < cy then Ordering.lt
      else if cy < cx then Ordering.gt
      else natCmp fuel xs ys

/-- The title order of the final `.sort(...)`. -/
def titleLe (a b : SpineItemStats) : Prop :=
  natCmp (a.title.length + b.title.length) a.title.data b.title.data ≠ Ordering.gt

instance : DecidableRel titleLe :=
  fun a b =>
    inferInstanceAs (Decidable (natCmp (a.title.length + b.title.length)
      a.title.data b.title.data ≠ Ordering.gt))

/-- Stable sort of the final stats by title. -/
def sortByTitle (items : List SpineItemStats) : List SpineItemStats :=
  List.insertionSort titleLe items

/-- The pipeline of `getSpineItemStats` *after* the chapter selection: score
every content item, drop items with a falsy (zero or `NaN`) score, run the
outlier filter, project to stats and sort by title.  `none` propagates the
exception the outlier filter throws on an empty array. -/
def statsPipelineCore (contentItems : List SpineItem) : Option (List SpineItemStats) :=
  let spineItemContent := contentItems.map mkContent
  let filteredSpineItemContent :=
    spineItemContent.filter (fun item => jsTruthy item.generated_lix)
  let filteredQ := filteredSpineItemContent.map contentToQ
  match filterItemsUsingStandardDeviation filteredQ 6 with
  | none => none
  | some keptItems =>
    some (sortByTitle (keptItems.map (fun item =>
      { title := item.title, generated_lix := item.generated_lix,
        word_count := item.words.length, long_word_count := item.long_words.length,
        sentence_count := item.sentences.length })))

/-- `getSpineItemStats`: restrict to the chapter-matching items when any path
matches `/chapter|kapitel/i`, else use all items, then run the pipeline. -/
def getSpineItemStats (spineItems : List SpineItem) : Option (List SpineItemStats) :=
  let chapters := spineItems.filter (fun item => chapterTest item.path)
  statsPipelineCore (if 0 < chapters.length then chapters else spineItems)

/-- `getTotalStats`: sum of the per-item counts (`reduce` with a zero initial
accumulator). -/
def getTotalStats (items : List SpineItemStats) : TextContentStats :=
  items.foldl
    (fun prev curr =>
      { word_count := prev.word_count + curr.word_count,
        long_word_count := prev.long_word_count + curr.long_word_count,
        sentence_count := prev.sentence_count + curr.sentence_count })
    { word_count := 0, long_word_count := 0, sentence_count := 0 }

/-- Stats list, whole-book totals and whole-book generated LIX, as computed by
`analyzeEpub` from the spine items (lines 67–78 of the source). -/
def bookStatsOf (spineItems : List SpineItem) :
    Option (List SpineItemStats × TextContentStats × JsNum) :=
  match getSpineItemStats spineItems with
  | none => none
  | some stats => some (stats, getTotalStats stats, calculateLixFromStats (getTotalStats stats))

/-! ## The final Analysis record (`analyzeEpub`) -/

/-- The `stats` sub-record of the report. -/
structure AnalysisStats where
  lix_found : Option ℕ
  lix_median : Option ℚ
  lix_generated : JsNum
  word_count : ℕ
  long_word_count : ℕ
  sentence_count : ℕ
deriving DecidableEq

/-- The final report. -/
structure Analysis where
  file_bytes : ℕ
  lix : JsNum
  stats : AnalysisStats
  items : List SpineItemStats
deriving DecidableEq

/-- Assembly of the final `Analysis` record from the computed pieces
(`analyzeEpub`, lines 70–95): totals, median and mean of the surviving scores,
whole-book generated LIX, and the authoritative field
`lix: lixFound ?? lixMedian ?? lixGenerated` (`??` falls through on
`null`/`undefined` only; `getMedian` is `undefined` only on an empty list). -/
def assembleAnalysis (file_bytes : ℕ) (spineItemStats : List SpineItemStats)
    (lixFound : Option ℕ) : Analysis :=
  let totalStats := getTotalStats spineItemStats
  let lixValues := spineItemStats.map (fun item => item.generated_lix)
  let lixMedian := getMedian lixValues
  let lixGenerated := calculateLixFromStats totalStats
  { file_bytes := file_bytes,
    lix :=
      match lixFound with
      | some v => JsNum.fin (v : ℚ)
      | none =>
        match lixMedian with
        | some m => JsNum.fin m
        | none => lixGenerated,
    stats :=
      { lix_found := lixFound, lix_median := lixMedian, lix_generated := lixGenerated,
        word_count := totalStats.word_count, long_word_count := totalStats.long_word_count,
        sentence_count := totalStats.sentence_count },
    items := spineItemStats }

/-! ## The manifest resolver (`extractItemPathsFromManifest`) -/

/-- One `<item>` entry of the OPF manifest. -/
structure ManifestItem where
  href : String
  mediaType : String
deriving DecidableEq

/-- JS truthiness of an array value: every array object is truthy, so
`!htmlItemPaths` is `false` even for the empty array. -/
def jsArrayFalsy (_ : List α) : Bool := false

/-- `extractItemPathsFromManifest`: keep the entries with media type
`application/xhtml+xml`, prefix with the OPF root when it is longer than one
character, and throw when `!htmlItemPaths` — which never holds, since an empty
array is truthy in JS. -/
def extractItemPathsFromManifest (manifest : List ManifestItem) (opfRoot : String) :
    Except String (List String) :=
  let htmlItemPaths :=
    (manifest.filter (fun item => decide (item.mediaType = "application/xhtml+xml"))).map
      (fun item => if 1 < opfRoot.length then opfRoot ++ "/" ++ item.href else item.href)
  if jsArrayFalsy htmlItemPaths then
    Except.error "Invalid EPUB format. Could not find any HTML content in manifest"
  else Except.ok htmlItemPaths

/-! ## Concrete instances used by witnesses and counterexamples -/

/-- Four items with scores `0, 20, 30, 40` (already integral, so rounding is
the identity on them). -/
def cexItems : List SpineItemContentQ :=
  [{ title := "a", generated_lix := 0, words := [], long_words := [], sentences := [] },
   { title := "b", generated_lix := 20, words := [], long_words := [], sentences := [] },
   { title := "c", generated_lix := 30, words := [], long_words := [], sentences := [] },
   { title := "d", generated_lix := 40, words := [], long_words := [], sentences := [] }]

/-- Two items with scores `10, 11`: standard deviation `1/2`, below the cap. -/
def noopItems : List SpineItemContentQ :=
  [{ title := "a", generated_lix := 10, words := [], long_words := [], sentences := [] },
   { title := "b", generated_lix := 11, words := [], long_words := [], sentences := [] }]

/-! # Supporting lemmas -/

/-- `getVariance` is a sum of squares divided by a nonnegative count. -/
theorem getVariance_nonneg (array : List ℚ) : 0 ≤ getVariance array := by
  unfold getVariance
  split
  · exact le_refl 0
  · apply div_nonneg
    · apply List.sum_nonneg
      intro x hx
      simp only [List.mem_map] at hx
      obtain ⟨d, _, rfl⟩ := hx
      exact mul_self_nonneg d
    · positivity

/-- `sqrtGtB v c` decides `c < Real.sqrt v` when `0 ≤ v`. -/
theorem sqrtGtB_iff (v c : ℚ) (hv : (0:ℚ) ≤ v) :
    sqrtGtB v c = true ↔ (c : ℝ) < Real.sqrt (v : ℚ) := by
  have hv' : (0:ℝ) ≤ (v : ℚ) := by exact_mod_cast hv
  rw [sqrtGtB, Bool.or_eq_true, decide_eq_true_eq, decide_eq_true_eq]
  constructor
  · rintro (hc | hsq)
    · exact lt_of_lt_of_le (by exact_mod_cast hc) (Real.sqrt_nonneg _)
    · rcases le_or_lt 0 c with hc | hc
      · rw [Real.lt_sqrt (by exact_mod_cast hc : (0:ℝ) ≤ ((c:ℚ):ℝ))]
        exact_mod_cast hsq
      · exact lt_of_lt_of_le (by exact_mod_cast hc) (Real.sqrt_nonneg _)
  · intro h
    rcases lt_or_le c 0 with hc | hc
    · exact Or.inl hc
    · right
      rw [Real.lt_sqrt (by exact_mod_cast hc : (0:ℝ) ≤ ((c:ℚ):ℝ))] at h
      exact_mod_cast h

/-- `gtAddSqrtB x m v` decides `m + Real.sqrt v < x` (unconditionally, since
`Real.sqrt` of a negative argument is `0` and a square dominates a negative
`v`). -/
theorem gtAddSqrtB_iff (x m v : ℚ) :
    gtAddSqrtB x m v = true ↔ (m : ℝ) + Real.sqrt (v : ℚ) < (x : ℝ) := by
  rw [gtAddSqrtB, Bool.and_eq_true, decide_eq_true_eq, decide_eq_true_eq]
  constructor
  · rintro ⟨h1, h2⟩
    have h1' : (0:ℝ) < (x:ℝ) - (m:ℝ) := by
      exact_mod_cast h1
    have h2' : ((v:ℚ):ℝ) < ((x:ℝ) - (m:ℝ)) ^ 2 := by
      have h2r : ((v:ℚ):ℝ) < (((x - m : ℚ)):ℝ) ^ 2 := by exact_mod_cast h2
      push_cast at h2r
      convert h2r using 2
    have := (Real.sqrt_lt' h1').mpr h2'
    linarith
  · intro h
    have hs : Real.sqrt (v:ℚ) < (x:ℝ) - (m:ℝ) := by linarith
    have h1' : (0:ℝ) < (x:ℝ) - (m:ℝ) := lt_of_le_of_lt (Real.sqrt_nonneg _) hs
    have h2' := (Real.sqrt_lt' h1').mp hs
    constructor
    · have : (0:ℝ) < ((x - m : ℚ):ℝ) := by push_cast; exact h1'
      exact_mod_cast this
    · have : ((v:ℚ):ℝ) < ((x - m : ℚ):ℝ) ^ 2 := by push_cast; convert h2' using 2
      exact_mod_cast this

/-- `ltSubSqrtB x m v` decides `x < m - Real.sqrt v`. -/
theorem ltSubSqrtB_iff (x m v : ℚ) :
    ltSubSqrtB x m v = true ↔ (x : ℝ) < (m : ℝ) - Real.sqrt (v : ℚ) := by
  have h := gtAddSqrtB_iff (-x) (-m) v
  rw [gtAddSqrtB, Bool.and_eq_true, decide_eq_true_eq, decide_eq_true_eq] at h
  rw [ltSubSqrtB, Bool.and_eq_true, decide_eq_true_eq, decide_eq_true_eq]
  constructor
  · rintro ⟨h1, h2⟩
    have := h.mp ⟨by linarith, by rw [show -x - -m = m - x by ring]; exact h2⟩
    push_cast at this ⊢
    linarith
  · intro hlt
    have := h.mpr (by push_cast; linarith)
    obtain ⟨h1, h2⟩ := this
    exact ⟨by linarith, by rw [show m - x = -x - -m by ring]; exact h2⟩

/-! # Claim theorems -/

/-- C5: On the input `"Mr. Smith went home. He left."` the tokenizer produces
**3** sentences, not 2: the consonant-abbreviation negative lookbehind never
takes effect (the pattern interpolates the `CONSONTANTS` RegExp object,
yielding the unmatchable `[/…]/]{1,3}\.`), so the split also fires after
`"Mr."`.  The word list contains `"Mr"` (without the period — the word
pattern extends past a period only when a letter follows) and `"Smith"`. -/
theorem tokenizer_mr_smith_eval :
    (extractContentFromText "Mr. Smith went home. He left.").sentences =
      ["Mr.", "Smith went home.", "He left."] ∧
    (extractContentFromText "Mr. Smith went home. He left.").words =
      ["Mr", "Smith", "went", "home", "He", "left"] :=
  ⟨by decide, by decide⟩

/-- C6 counterexample: on `"LIX142"` the search does *not* return `none`; the
greedy 1–2-digit capture takes `"14"`, and the negative lookahead
`(?!\d?[-+])` is satisfied because the remaining `"2"` is not followed by a
sign.  The claim asserted no match. -/
theorem lix_search_142_counterexample :
    searchForLixInText "LIX142" = some 14 := by decide

/-- C6 amended: `"Forfatterens LIX-tal: 42."` yields 42, and `"LIX142"`
yields 14 (not `none`): the lookahead rejects a match only when the captured
digits are followed by at most one further digit and then a `+` or `-`. -/
theorem lix_search_amended :
    searchForLixInText "Forfatterens LIX-tal: 42." = some 42 ∧
    searchForLixInText "LIX142" = some 14 :=
  ⟨by decide, by decide⟩

/-- C8: with zero `application/xhtml+xml` entries the manifest resolver does
*not* fail — `!htmlItemPaths` is always false because an empty JS array is
truthy — it returns the empty path list, and the run only fails later in
`extractItemsFromSpine`. -/
theorem manifest_guard_never_fires :
    extractItemPathsFromManifest [{ href := "style.css", mediaType := "text/css" }] "OEBPS" =
      Except.ok [] := rfl

/-- C10: long words are the length-`> 6` filter of the word list: every long
word has length `> 6`, `long_words` is a sublist of `words` (same order),
multiplicities agree with the filter, and there are no more long words than
words. -/
theorem long_words_invariants (text : String) :
    (∀ w ∈ (extractContentFromText text).long_words, 6 < w.length) ∧
    (extractContentFromText text).long_words.Sublist (extractContentFromText text).words ∧
    (∀ w : String, (extractContentFromText text).long_words.count w =
      if 6 < w.length then (extractContentFromText text).words.count w else 0) ∧
    (extractContentFromText text).long_words.length ≤
      (extractContentFromText text).words.length := by
  have hlw : (extractContentFromText text).long_words =
      (extractContentFromText text).words.filter (fun w => decide (6 < w.length)) := rfl
  refine ⟨?_, ?_, ?_, ?_⟩
  · intro w hw
    rw [hlw] at hw
    simpa using (List.mem_filter.mp hw).2
  · rw [hlw]
    exact List.filter_sublist _
  · intro w
    rw [hlw]
    by_cases h : 6 < w.length
    · rw [if_pos h]
      exact List.count_filter (by simpa using h)
    · rw [if_neg h]
      rw [List.count_eq_zero]
      intro hmem
      exact h (by simpa using (List.mem_filter.mp hmem).2)
  · rw [hlw]
    exact List.length_filter_le _ _

/-- C7: `getMedian` is invariant under reversing its input, and on a sorted
permutation `s` of the input it returns the average of the two middle entries
for even length and the middle entry for odd length.  (Any sorted permutation
equals the function's own sorted array, so the statement pins the result to
the abstract "ascending-sorted sequence" of the claim.) -/
theorem getMedian_spec (l s : List ℚ) (hne : l ≠ []) (hp : l.Perm s)
    (hs : s.Sorted (· ≤ ·)) :
    getMedian l = getMedian l.reverse ∧
    (s.length % 2 = 0 → getMedian l =
      some ((s.getD (s.length / 2 - 1) 0 + s.getD (s.length / 2) 0) / 2)) ∧
    (s.length % 2 = 1 → getMedian l = some (s.getD (s.length / 2) 0)) := by
  have hsort : sortQ l = s := by
    have h1 : List.Sorted (· ≤ ·) (sortQ l) := List.sorted_insertionSort _ l
    exact List.eq_of_perm_of_sorted ((List.perm_insertionSort _ l).trans hp) h1 hs
  have hrev : sortQ l.reverse = sortQ l := by
    have h1 : List.Sorted (· ≤ ·) (sortQ l.reverse) := List.sorted_insertionSort _ _
    have h2 : List.Sorted (· ≤ ·) (sortQ l) := List.sorted_insertionSort _ l
    exact List.eq_of_perm_of_sorted
      ((List.perm_insertionSort _ _).trans
        (l.reverse_perm.trans (List.perm_insertionSort _ l).symm)) h1 h2
  have hne' : s ≠ [] := by
    intro h
    subst h
    exact hne (List.Perm.eq_nil hp)
  have hpos : 0 < s.length := List.length_pos.mpr hne'
  refine ⟨?_, ?_, ?_⟩
  · simp only [getMedian]
    rw [hrev]
  · intro heven
    have h2 : 1 < s.length := by omega
    simp only [getMedian]
    rw [hsort, if_neg (by simp [hne']), if_pos ⟨heven, h2⟩]
  · intro hodd
    simp only [getMedian]
    rw [hsort, if_neg (by simp [hne']), if_neg (by omega)]

/-- C7 witness: `getMedian` at the concrete input `[3, 1, 2]` with sorted
permutation `[1, 2, 3]`. -/
theorem getMedian_spec_witness :
    getMedian [(3:ℚ), 1, 2] = getMedian [(3:ℚ), 1, 2].reverse ∧
    getMedian [(3:ℚ), 1, 2] = some 2 := by
  have h := getMedian_spec [(3:ℚ), 1, 2] [1, 2, 3] (by decide) (by decide)
    (by simp [List.sorted_cons]; norm_num)
  refine ⟨h.1, ?_⟩
  have h2 := h.2.2 (by decide)
  rw [h2]
  decide

/-- C1: the authoritative `lix` field of the assembled Analysis record is the
text-found value when non-null, else the median of the surviving per-item
scores when defined, else the whole-book generated LIX. -/
theorem analysisLix_priority (fb : ℕ) (stats : List SpineItemStats) (found : Option ℕ) :
    (∀ v, found = some v →
      (assembleAnalysis fb stats found).lix = JsNum.fin (v : ℚ)) ∧
    (found = none →
      ∀ m, getMedian (stats.map (fun item => item.generated_lix)) = some m →
        (assembleAnalysis fb stats found).lix = JsNum.fin m) ∧
    (found = none →
      getMedian (stats.map (fun item => item.generated_lix)) = none →
        (assembleAnalysis fb stats found).lix =
          calculateLixFromStats (getTotalStats stats)) := by
  refine ⟨?_, ?_, ?_⟩
  · rintro v rfl
    rfl
  · rintro rfl m hm
    simp only [assembleAnalysis]
    rw [hm]
  · rintro rfl hm
    simp only [assembleAnalysis]
    rw [hm]

/-- C1 witness: a one-item stats list with no found value resolves to the
median (here `30`). -/
theorem analysisLix_priority_witness :
    (assembleAnalysis 0 [⟨"a", 30, 10, 2, 1⟩] none).lix = JsNum.fin 30 := by
  exact (analysisLix_priority 0 [⟨"a", 30, 10, 2, 1⟩] none).2.1 rfl 30 (by decide)

/-- The sorted array is nonempty whenever the input is. -/
theorem sortByLix_ne_nil {items : List SpineItemContentQ} (h : items ≠ []) :
    sortByLix items ≠ [] := by
  intro hc
  apply h
  have hperm := List.perm_insertionSort lixLe items
  rw [show List.insertionSort lixLe items = sortByLix items from rfl, hc] at hperm
  exact (List.Perm.eq_nil hperm.symm)

/-- The element the filter reads its midpoint from belongs to the sorted array. -/
theorem midLix_src_mem (items : List SpineItemContentQ) (h : items ≠ []) :
    (sortByLix items).getD ((sortByLix items).length / 2) emptyItemQ ∈ sortByLix items := by
  have hne := sortByLix_ne_nil h
  have hlt : (sortByLix items).length / 2 < (sortByLix items).length :=
    Nat.div_lt_self (List.length_pos.mpr hne) one_lt_two
  rw [List.getD_eq_getElem _ _ hlt]
  exact List.getElem_mem hlt

/-- The removal loop, run on a sorted suffix against fixed bound predicates,
acts as the plain filter keeping the in-bounds elements — provided the upper
predicate is upward-closed along the sort order, every element of the already
kept prefix is in bounds, and some element is in bounds (which rules out the
`TypeError` branch).  This is the non-mutating description of the
splice-and-decrement loop. -/
theorem sdLoop_eq_filter (hiB loB : SpineItemContentQ → Bool)
    (hmono : ∀ a b : SpineItemContentQ, a.generated_lix ≤ b.generated_lix →
      hiB a = true → hiB b = true)
    (rest : List SpineItemContentQ) :
    ∀ prev, List.Sorted lixLe rest →
      (∀ p ∈ prev, (!hiB p && !loB p) = true) →
      (∃ x, (x ∈ prev ∨ x ∈ rest) ∧ (!hiB x && !loB x) = true) →
      sdLoop hiB loB prev rest =
        prev.reverse ++ rest.filter (fun e => !hiB e && !loB e) := by
  induction rest with
  | nil =>
    intro prev _ _ _
    simp [sdLoop]
  | cons e rest ih =>
    intro prev hsort hprev hex
    by_cases hhi : hiB e = true
    · cases prev with
      | nil =>
        exfalso
        obtain ⟨x, hx, hkeep⟩ := hex
        have hxr : x ∈ e :: rest := by
          rcases hx with h | h
          · simp at h
          · exact h
        have hhix : hiB x = true := by
          rcases List.mem_cons.mp hxr with rfl | hmem
          · exact hhi
          · exact hmono e x (List.rel_of_sorted_cons hsort x hmem) hhi
        rw [Bool.and_eq_true, hhix] at hkeep
        simp at hkeep
      | cons p ps =>
        have hp := hprev p (List.mem_cons_self p ps)
        rw [Bool.and_eq_true] at hp
        have hlop : loB p = false := by
          have h2 := hp.2
          rwa [Bool.not_eq_true'] at h2
        have hstep : sdLoop hiB loB (p :: ps) (e :: rest) = sdLoop hiB loB (p :: ps) rest := by
          simp [sdLoop, hhi, hlop]
        rw [hstep, ih (p :: ps) hsort.of_cons hprev ?_]
        · have hkeepE : (!hiB e && !loB e) = false := by simp [hhi]
          simp [List.filter_cons, hkeepE]
        · obtain ⟨x, hx, hkeep⟩ := hex
          refine ⟨x, ?_, hkeep⟩
          rcases hx with h | h
          · exact Or.inl h
          · rcases List.mem_cons.mp h with rfl | hmem
            · exfalso
              rw [Bool.and_eq_true, hhi] at hkeep
              simp at hkeep
            · exact Or.inr hmem
    · by_cases hlo : loB e = true
      · have hstep : sdLoop hiB loB prev (e :: rest) = sdLoop hiB loB prev rest := by
          simp [sdLoop, hhi, hlo]
        rw [hstep, ih prev hsort.of_cons hprev ?_]
        · have hkeepE : (!hiB e && !loB e) = false := by simp [hlo]
          simp [List.filter_cons, hkeepE]
        · obtain ⟨x, hx, hkeep⟩ := hex
          refine ⟨x, ?_, hkeep⟩
          rcases hx with h | h
          · exact Or.inl h
          · rcases List.mem_cons.mp h with rfl | hmem
            · exfalso
              rw [Bool.and_eq_true, hlo] at hkeep
              simp at hkeep
            · exact Or.inr hmem
      · have hkeepE : (!hiB e && !loB e) = true := by simp [hhi, hlo]
        have hstep : sdLoop hiB loB prev (e :: rest) = sdLoop hiB loB (e :: prev) rest := by
          simp [sdLoop, hhi, hlo]
        rw [hstep, ih (e :: prev) hsort.of_cons ?_ ⟨e, Or.inl (List.mem_cons_self e prev), hkeepE⟩]
        · simp [List.filter_cons, hkeepE]
        · intro q hq
          rcases List.mem_cons.mp hq with rfl | hmem
          · exact hkeepE
          · exact hprev q hmem

/-- C2 amended: when the standard deviation of the rounded scores exceeds the
cap, the filter removes exactly the items strictly above
`midValue + stdDev` or strictly below `midValue - stdDev`, where `midValue`
is the element at index `⌊n/2⌋` of the ascending-sorted list (the *upper
middle* element — not the `getMedian` average of the two middle elements),
with both bounds fixed before any removal; every in-bounds item is kept in
sorted order.  The bound predicates are the decidable forms of
`score > midValue + √variance` and `score < midValue - √variance`
(`gtAddSqrtB_iff`, `ltSubSqrtB_iff`). -/
theorem outlierFilter_bounds (items : List SpineItemContentQ) (hne : items ≠ [])
    (hsd : (6:ℝ) < Real.sqrt ((roundedVariance items : ℚ) : ℝ)) :
    filterItemsUsingStandardDeviation items 6 =
      some ((sortByLix items).filter (fun e =>
        !gtAddSqrtB e.generated_lix (midLix items) (roundedVariance items) &&
        !ltSubSqrtB e.generated_lix (midLix items) (roundedVariance items))) := by
  have hv : (0:ℚ) ≤ roundedVariance items := getVariance_nonneg _
  have hb : sqrtGtB (roundedVariance items) 6 = true :=
    (sqrtGtB_iff _ _ hv).mpr (by exact_mod_cast hsd)
  have hsne : sortByLix items ≠ [] := sortByLix_ne_nil hne
  have hie : (sortByLix items).isEmpty = false := by
    simp [List.isEmpty_iff, hsne]
  have hloop := sdLoop_eq_filter
    (fun e => gtAddSqrtB e.generated_lix (midLix items) (roundedVariance items))
    (fun e => ltSubSqrtB e.generated_lix (midLix items) (roundedVariance items))
    ?_ (sortByLix items) [] (List.sorted_insertionSort lixLe items) (by simp) ?_
  · simp only [filterItemsUsingStandardDeviation, hie, hb]
    simp only [Bool.false_eq_true, if_false, if_true]
    rw [hloop]
    simp
  · intro a b hab ha
    simp only [gtAddSqrtB, Bool.and_eq_true, decide_eq_true_eq] at ha ⊢
    obtain ⟨h1, h2⟩ := ha
    have hle : a.generated_lix - midLix items ≤ b.generated_lix - midLix items := by linarith
    refine ⟨by linarith, lt_of_lt_of_le h2 ?_⟩
    exact pow_le_pow_left₀ (le_of_lt h1) hle 2
  · refine ⟨(sortByLix items).getD ((sortByLix items).length / 2) emptyItemQ,
      Or.inr (midLix_src_mem items hne), ?_⟩
    have hmid : midLix items =
        ((sortByLix items).getD ((sortByLix items).length / 2) emptyItemQ).generated_lix := rfl
    rw [hmid]
    simp [gtAddSqrtB, ltSubSqrtB]

/-- C9 amended: on a *non-empty* score list whose standard deviation does not
exceed the cap, the filter returns the sorted list unchanged. -/
theorem outlierFilter_noop (items : List SpineItemContentQ) (hne : items ≠ [])
    (hsd : Real.sqrt ((roundedVariance items : ℚ) : ℝ) ≤ 6) :
    filterItemsUsingStandardDeviation items 6 = some (sortByLix items) := by
  have hv : (0:ℚ) ≤ roundedVariance items := getVariance_nonneg _
  have hb : sqrtGtB (roundedVariance items) 6 = false := by
    cases h : sqrtGtB (roundedVariance items) 6 with
    | false => rfl
    | true =>
      exfalso
      have h6 := (sqrtGtB_iff _ _ hv).mp h
      have h6' : (6:ℝ) < Real.sqrt ((roundedVariance items : ℚ) : ℝ) := by exact_mod_cast h6
      linarith
  have hie : (sortByLix items).isEmpty = false := by
    simp [List.isEmpty_iff, sortByLix_ne_nil hne]
  simp [filterItemsUsingStandardDeviation, hie, hb]

/-- C9 counterexample: on the *empty* list the standard deviation (0) is below
the cap, yet the filter does not return the list unchanged — it throws
(`sortedArr[0].generated_lix` is a `TypeError` outside the `try`), modelled as
`none`. -/
theorem outlierFilter_noop_empty_counterexample :
    Real.sqrt ((roundedVariance ([] : List SpineItemContentQ) : ℚ) : ℝ) ≤ 6 ∧
    filterItemsUsingStandardDeviation ([] : List SpineItemContentQ) 6 ≠
      some (sortByLix ([] : List SpineItemContentQ)) := by
  constructor
  · rw [show roundedVariance ([] : List SpineItemContentQ) = 0 from rfl]
    rw [show ((0:ℚ):ℝ) = 0 from by norm_num, Real.sqrt_zero]
    norm_num
  · decide

/-- The rounded scores of `cexItems` are the scores themselves. -/
theorem cex_roundedScores : roundedScores cexItems = [0, 20, 30, 40] := by
  have hsort : sortByLix cexItems = cexItems := by decide
  have h0 : jsRound (0:ℚ) = 0 := by rw [jsRound, Int.floor_eq_iff]; norm_num
  have h20 : jsRound (20:ℚ) = 20 := by rw [jsRound, Int.floor_eq_iff]; norm_num
  have h30 : jsRound (30:ℚ) = 30 := by rw [jsRound, Int.floor_eq_iff]; norm_num
  have h40 : jsRound (40:ℚ) = 40 := by rw [jsRound, Int.floor_eq_iff]; norm_num
  simp only [roundedScores]
  rw [hsort]
  simp [cexItems, h0, h20, h30, h40]

/-- Population variance of `[0, 20, 30, 40]` is `218.75`. -/
theorem cex_variance : roundedVariance cexItems = 875/4 := by
  rw [roundedVariance, cex_roundedScores]
  norm_num [getVariance]

/-- The filter's midpoint on `cexItems` is the upper middle element `30`. -/
theorem cex_mid : midLix cexItems = 30 := by
  have hsort : sortByLix cexItems = cexItems := by decide
  simp only [midLix, hsort]
  decide

/-- The standard deviation of `cexItems` exceeds the cap: `6 < √218.75`. -/
theorem cex_sqrt_gt : (6:ℝ) < Real.sqrt ((roundedVariance cexItems : ℚ) : ℝ) := by
  rw [cex_variance, show ((875/4 : ℚ) : ℝ) = 875/4 from by norm_num]
  rw [Real.lt_sqrt (by norm_num : (0:ℝ) ≤ 6)]
  norm_num

/-- `25 + √218.75 < 40`, i.e. the score `40` lies strictly above
`getMedian + stdDev`. -/
theorem cex_sqrt_lt : (25:ℝ) + Real.sqrt ((roundedVariance cexItems : ℚ) : ℝ) < 40 := by
  rw [cex_variance, show ((875/4 : ℚ) : ℝ) = 875/4 from by norm_num]
  have h := (Real.sqrt_lt' (by norm_num : (0:ℝ) < 15)).mpr (by norm_num : (875/4:ℝ) < 15 ^ 2)
  linarith

/-- Concrete run of the filter on `cexItems`: only the score `0` is removed
(the code's bounds are `30 ± √218.75`), so the item scored `40` survives. -/
theorem cex_filter_run :
    filterItemsUsingStandardDeviation cexItems 6 =
      some [⟨"b", 20, [], [], []⟩, ⟨"c", 30, [], [], []⟩, ⟨"d", 40, [], [], []⟩] := by
  have hsort : sortByLix cexItems = cexItems := by decide
  simp only [filterItemsUsingStandardDeviation, hsort, cex_variance, cex_mid]
  norm_num [sqrtGtB, cexItems, sdLoop, gtAddSqrtB, ltSubSqrtB]

/-- C2 counterexample: on the scores `[0, 20, 30, 40]` the §8 median is `25`
and the standard deviation `√218.75` exceeds the cap, the score `40` is
strictly greater than `median + stdDev` (conjunct 3) — yet the filter keeps
it (conjunct 4): the code measures the bounds from the upper middle element
`30`, not from the §8 median `25`, so the removal set differs from the
claimed one on even-length lists. -/
theorem outlierFilter_median_counterexample :
    getMedian [0, 20, 30, 40] = some 25 ∧
    (6:ℝ) < Real.sqrt ((roundedVariance cexItems : ℚ) : ℝ) ∧
    (25:ℝ) + Real.sqrt ((roundedVariance cexItems : ℚ) : ℝ) < 40 ∧
    filterItemsUsingStandardDeviation cexItems 6 =
      some [⟨"b", 20, [], [], []⟩, ⟨"c", 30, [], [], []⟩, ⟨"d", 40, [], [], []⟩] := by
  refine ⟨?_, cex_sqrt_gt, cex_sqrt_lt, cex_filter_run⟩
  norm_num [getMedian, sortQ, List.insertionSort, List.orderedInsert]

/-- C2 witness: `outlierFilter_bounds` applied to the concrete `cexItems`. -/
theorem outlierFilter_bounds_witness :
    filterItemsUsingStandardDeviation cexItems 6 =
      some ((sortByLix cexItems).filter (fun e =>
        !gtAddSqrtB e.generated_lix (midLix cexItems) (roundedVariance cexItems) &&
        !ltSubSqrtB e.generated_lix (midLix cexItems) (roundedVariance cexItems))) :=
  outlierFilter_bounds cexItems (by decide) cex_sqrt_gt

/-- Rounded variance of the scores `[10, 11]` is `1/4`. -/
theorem noop_variance : roundedVariance noopItems = 1/4 := by
  have hsort : sortByLix noopItems = noopItems := by decide
  have h10 : jsRound (10:ℚ) = 10 := by rw [jsRound, Int.floor_eq_iff]; norm_num
  have h11 : jsRound (11:ℚ) = 11 := by rw [jsRound, Int.floor_eq_iff]; norm_num
  have hrs : roundedScores noopItems = [10, 11] := by
    simp only [roundedScores]
    rw [hsort]
    simp [noopItems, h10, h11]
  rw [roundedVariance, hrs]
  norm_num [getVariance]

/-- C9 witness: `outlierFilter_noop` applied to the concrete `noopItems`
(standard deviation `1/2 ≤ 6`). -/
theorem outlierFilter_noop_witness :
    filterItemsUsingStandardDeviation noopItems 6 = some (sortByLix noopItems) := by
  apply outlierFilter_noop noopItems (by decide)
  rw [noop_variance, show ((1/4 : ℚ) : ℝ) = 1/4 from by norm_num]
  rw [Real.sqrt_le_left (by norm_num : (0:ℝ) ≤ 6)]
  norm_num

/-- A character on which `p` fails survives `dropWhile p`. -/
theorem mem_dropWhile_of_not {p : Char → Bool} {c : Char} (hc : p c = false) :
    ∀ {l : List Char}, c ∈ l → c ∈ l.dropWhile p := by
  intro l
  induction l with
  | nil => intro h; simp at h
  | cons a t ih =>
    intro h
    rw [List.dropWhile_cons]
    by_cases ha : p a = true
    · rw [if_pos ha]
      rcases List.mem_cons.mp h with rfl | hmem
      · rw [hc] at ha; cases ha
      · exact ih hmem
    · rw [if_neg ha]
      exact h

/-- A non-whitespace character survives `trim`. -/
theorem mem_jsTrimL {c : Char} (hc : jsWs c = false) {l : List Char} (h : c ∈ l) :
    c ∈ jsTrimL l := by
  unfold jsTrimL
  rw [List.mem_reverse]
  apply mem_dropWhile_of_not hc
  rw [List.mem_reverse]
  exact mem_dropWhile_of_not hc h

/-- `dropWhile` does not lengthen a list. -/
theorem dropWhile_length_le (p : Char → Bool) :
    ∀ l : List Char, (l.dropWhile p).length ≤ l.length := by
  intro l
  induction l with
  | nil => simp
  | cons a t ih =>
    rw [List.dropWhile_cons]
    split
    · exact le_trans ih (by simp)
    · exact le_refl _

/-- Word characters are never whitespace. -/
theorem wordChar_not_ws (c : Char) (h : wordChar c = true) : jsWs c = false := by
  by_contra hws
  rw [Bool.not_eq_false] at hws
  simp only [wordChar, lowAlpha, upAlpha, digitCh, accLatin, Bool.or_eq_true,
    Bool.and_eq_true, decide_eq_true_eq] at h
  simp only [jsWs, Bool.or_eq_true, Bool.and_eq_true, decide_eq_true_eq] at hws
  omega

/-- On text without any word character the word scanner finds nothing. -/
theorem wordsGo_no_wordChar (fuel : ℕ) :
    ∀ l : List Char, (∀ c ∈ l, wordChar c = false) → wordsGo fuel [] false l = [] := by
  induction fuel with
  | zero =>
    intro l _
    cases l <;> simp [wordsGo]
  | succ fuel ih =>
    intro l h
    cases l with
    | nil => simp [wordsGo]
    | cons c rest =>
      have hc := h c (List.mem_cons_self c rest)
      rw [show wordsGo (fuel+1) [] false (c :: rest) = wordsGo fuel [] false rest from by
        simp [wordsGo, hc]]
      exact ih rest (fun d hd => h d (List.mem_cons_of_mem c hd))

/-- Every non-whitespace character of the remaining text or of the current
fragment ends up inside some fragment of the sentence split: the separators
the split consumes are whitespace-only. -/
theorem sentGo_exists_mem (c : Char) (hc : jsWs c = false) :
    ∀ (fuel : ℕ) (prevRev rest cur : List Char), rest.length ≤ fuel →
      (c ∈ rest ∨ c ∈ cur) →
      ∃ frag ∈ sentGo fuel prevRev rest cur, c ∈ frag := by
  intro fuel
  induction fuel with
  | zero =>
    intro prevRev rest cur hlen hmem
    have hrest : rest = [] := List.length_eq_zero.mp (Nat.le_zero.mp hlen)
    subst hrest
    rcases hmem with h | h
    · simp at h
    · exact ⟨cur.reverse, by simp [sentGo], by simpa using h⟩
  | succ fuel ih =>
    intro prevRev rest cur hlen hmem
    cases rest with
    | nil =>
      rcases hmem with h | h
      · simp at h
      · exact ⟨cur.reverse, by simp [sentGo], by simpa using h⟩
    | cons c0 rest' =>
      have hlen' : rest'.length ≤ fuel := by simpa using hlen
      by_cases hb : (jsWs c0 && sentBoundary prevRev) = true
      · have hws0 : jsWs c0 = true := by
          rw [Bool.and_eq_true] at hb
          exact hb.1
        have hcne : c ≠ c0 := by
          intro hEq
          rw [hEq, hws0] at hc
          cases hc
        have hmem' : c ∈ rest' ∨ c ∈ cur := by
          rcases hmem with h | h
          · rcases List.mem_cons.mp h with rfl | hmem2
            · exact absurd rfl hcne
            · exact Or.inl hmem2
          · exact Or.inr h
        have hafter : c ∈ rest' → c ∈ rest'.dropWhile jsWs := by
          intro hmem2
          exact mem_dropWhile_of_not hc hmem2
        by_cases h1 : laMatch (rest'.dropWhile jsWs) = true
        · rw [show sentGo (fuel+1) prevRev (c0 :: rest') cur =
              cur.reverse :: sentGo fuel ((c0 :: rest'.takeWhile jsWs).reverse ++ prevRev)
                (rest'.dropWhile jsWs) [] from by simp [sentGo, hb, h1]]
          rcases hmem' with h | h
          · have hlen2 : (rest'.dropWhile jsWs).length ≤ fuel :=
              le_trans (dropWhile_length_le jsWs rest') hlen'
            obtain ⟨frag, hfrag, hcf⟩ := ih _ (rest'.dropWhile jsWs) []
              hlen2 (Or.inl (hafter h))
            exact ⟨frag, List.mem_cons_of_mem _ hfrag, hcf⟩
          · exact ⟨cur.reverse, List.mem_cons_self _ _, by simpa using h⟩
        · by_cases h2 : (rest'.takeWhile jsWs).isEmpty = true
          · rw [show sentGo (fuel+1) prevRev (c0 :: rest') cur =
                sentGo fuel (c0 :: prevRev) rest' (c0 :: cur) from by
              simp [sentGo, hb, h1, h2]]
            apply ih _ rest' (c0 :: cur) hlen'
            rcases hmem' with h | h
            · exact Or.inl h
            · exact Or.inr (List.mem_cons_of_mem c0 h)
          · rw [show sentGo (fuel+1) prevRev (c0 :: rest') cur =
                cur.reverse :: sentGo fuel
                  ((c0 :: (rest'.takeWhile jsWs).dropLast).reverse ++ prevRev)
                  ((rest'.takeWhile jsWs).getLastD ' ' :: rest'.dropWhile jsWs) [] from by
              simp [sentGo, hb, h1, h2]]
            rcases hmem' with h | h
            · have hlsplit : rest'.length =
                  (rest'.takeWhile jsWs).length + (rest'.dropWhile jsWs).length := by
                conv_lhs => rw [← List.takeWhile_append_dropWhile jsWs rest']
                rw [List.length_append]
              have htw : 0 < (rest'.takeWhile jsWs).length := by
                rcases Nat.eq_zero_or_pos (rest'.takeWhile jsWs).length with hz | hp
                · exfalso
                  rw [List.isEmpty_iff] at h2
                  exact h2 (List.length_eq_zero.mp hz)
                · exact hp
              have hlen2 : ((rest'.takeWhile jsWs).getLastD ' ' ::
                  rest'.dropWhile jsWs).length ≤ fuel := by
                simp only [List.length_cons]
                omega
              obtain ⟨frag, hfrag, hcf⟩ := ih _ _ []
                hlen2 (Or.inl (List.mem_cons_of_mem _ (hafter h)))
              exact ⟨frag, List.mem_cons_of_mem _ hfrag, hcf⟩
            · exact ⟨cur.reverse, List.mem_cons_self _ _, by simpa using h⟩
      · rw [show sentGo (fuel+1) prevRev (c0 :: rest') cur =
            sentGo fuel (c0 :: prevRev) rest' (c0 :: cur) from by simp [sentGo, hb]]
        apply ih _ rest' (c0 :: cur) hlen'
        rcases hmem with h | h
        · rcases List.mem_cons.mp h with rfl | hmem2
          · exact Or.inr (List.mem_cons_self c cur)
          · exact Or.inl hmem2
        · exact Or.inr (List.mem_cons_of_mem c0 h)

/-- If the tokenizer finds no sentence in a text, it finds no word either:
zero sentences force the trimmed text to be all-whitespace, leaving nothing
for the word pattern to match. -/
theorem sentences_nil_words_nil (text : String) :
    (extractContentFromText text).sentences = [] →
    (extractContentFromText text).words = [] := by
  intro hs
  by_contra hw
  have hex : ∃ c ∈ text.data, wordChar c = true := by
    by_contra hno
    push_neg at hno
    have hall : ∀ c ∈ text.data, wordChar c = false := by
      intro d hd
      have := hno d hd
      cases hwc : wordChar d with
      | false => rfl
      | true => exact absurd hwc this
    apply hw
    have hnil : wordsGo text.data.length [] false text.data = [] :=
      wordsGo_no_wordChar _ _ hall
    show ((wordsGo text.data.length [] false text.data).filter
      (fun w => decide (0 < w.length))).map (fun w => String.mk w) = []
    rw [hnil]
    rfl
  obtain ⟨c, hc, hcw⟩ := hex
  have hcnw : jsWs c = false := wordChar_not_ws c hcw
  have h1 : c ∈ jsTrimL text.data := mem_jsTrimL hcnw hc
  obtain ⟨frag, hfrag, hcfrag⟩ :=
    sentGo_exists_mem c hcnw (jsTrimL text.data).length [] (jsTrimL text.data) []
      (le_refl _) (Or.inl h1)
  have hkeep : 0 < (jsTrimL frag).length :=
    List.length_pos.mpr (List.ne_nil_of_mem (mem_jsTrimL hcnw hcfrag))
  have hmem : String.mk frag ∈ (extractContentFromText text).sentences := by
    simp only [extractContentFromText, splitToSentences, List.mem_map]
    exact ⟨frag, List.mem_filter.mpr ⟨hfrag, by simpa using hkeep⟩, rfl⟩
  rw [hs] at hmem
  simp at hmem

/-- C3: an item whose text tokenizes to zero sentences or zero words gets the
score `NaN` (`0/0` enters the sum in either case: zero sentences force zero
words, and zero words make the long-word ratio `0*100/0`), `NaN` is falsy, so
the item is dropped by the score filter of `getSpineItemStats` — before the
outlier filter and before any aggregation over that list. -/
theorem undefined_score_excluded (path text : String) (items : List SpineItem)
    (h : (extractContentFromText text).sentences.length = 0 ∨
      (extractContentFromText text).words.length = 0) :
    mkContent { path := path, text := text } ∉
      (items.map mkContent).filter (fun item => jsTruthy item.generated_lix) := by
  have hwnil : (extractContentFromText text).words = [] := by
    rcases h with h | h
    · exact sentences_nil_words_nil text (List.length_eq_zero.mp h)
    · exact List.length_eq_zero.mp h
  have hlw : (extractContentFromText text).long_words = [] := by
    have heq : (extractContentFromText text).long_words =
        (extractContentFromText text).words.filter (fun w => decide (6 < w.length)) := rfl
    rw [heq, hwnil]
    rfl
  have hlix : (mkContent { path := path, text := text }).generated_lix = JsNum.nan := by
    simp only [mkContent]
    rw [hwnil, hlw]
    by_cases hsc : (extractContentFromText text).sentences.length = 0 <;>
      simp [calculateLixFromStats, jsDivNat, jsAdd, jsToFixed0, hsc]
  intro hmem
  have htr := (List.mem_filter.mp hmem).2
  rw [hlix] at htr
  simp [jsTruthy] at htr

/-- C3 witness: the text `"???"` has one sentence but zero words; its item is
dropped by the score filter. -/
theorem undefined_score_excluded_witness :
    mkContent { path := "p", text := "???" } ∉
      ([({ path := "p", text := "???" } : SpineItem)].map mkContent).filter
        (fun item => jsTruthy item.generated_lix) :=
  undefined_score_excluded "p" "???" [{ path := "p", text := "???" }]
    (Or.inr (by decide))

/-- C4: when some item path matches `/chapter|kapitel/i`, the whole stats
computation — per-item stats, outlier-filter input, whole-book totals and
whole-book generated LIX — reads only the chapter-matching items: running the
pipeline on the full list equals running it on the list with every
non-matching item removed. -/
theorem chapter_restriction (spineItems : List SpineItem)
    (h : spineItems.any (fun item => chapterTest item.path) = true) :
    bookStatsOf spineItems =
      bookStatsOf (spineItems.filter (fun item => chapterTest item.path)) := by
  have hstats : getSpineItemStats spineItems =
      getSpineItemStats (spineItems.filter (fun item => chapterTest item.path)) := by
    obtain ⟨x, hx, hpx⟩ := List.any_eq_true.mp h
    have hmem : x ∈ spineItems.filter (fun item => chapterTest item.path) :=
      List.mem_filter.mpr ⟨hx, hpx⟩
    have hpos : 0 < (spineItems.filter (fun item => chapterTest item.path)).length :=
      List.length_pos.mpr (List.ne_nil_of_mem hmem)
    have hff : (spineItems.filter (fun item => chapterTest item.path)).filter
        (fun item => chapterTest item.path) =
        spineItems.filter (fun item => chapterTest item.path) := by
      rw [List.filter_filter]
      simp
    simp only [getSpineItemStats]
    rw [hff, if_pos hpos, if_pos hpos]
  simp only [bookStatsOf]
  rw [hstats]

/-- C4 witness: a two-item spine where only the first path matches the
chapter pattern. -/
theorem chapter_restriction_witness :
    bookStatsOf [⟨"chapter1.xhtml", "a b"⟩, ⟨"notes.xhtml", "c d"⟩] =
      bookStatsOf ([(⟨"chapter1.xhtml", "a b"⟩ : SpineItem), ⟨"notes.xhtml", "c d"⟩].filter
        (fun item => chapterTest item.path)) :=
  chapter_restriction _ (by decide)
